import Mathlib

/-!
Shallow embedding of `src/appstore_resolver.py` (the identity-resolution
engine: scoring, decision policy, candidate aggregation, canonicalization
and the dedup ledger), together with theorems settling the specification
claims about it.

Conventions of the embedding:
* Python floats are modelled as `ℚ` (every constant the code manipulates is
  exact and the arithmetic performed — sums and comparisons of such
  constants — is exact in both systems).
* The two network calls (`search_apps`, `lookup`) and the two rapidfuzz
  ratios (`fuzz.WRatio`, `fuzz.partial_ratio`) are external effects and are
  modelled as explicit function parameters ("oracles").  An oracle result of
  `none` models the call raising an exception.
* Python string truthiness (`None` and `""` are falsy) is modelled by
  `orS`/`sellerOrArtist`; `str.lower`/`str.strip` are modelled by
  `lowerChar`/`stripChars` (ASCII, executable in the kernel).
* Python dicts preserve insertion order; `candidates_by_id` is therefore an
  association list, and the Python `set` `_countries` is a `Finset String`.
-/

namespace AppResolver

/-- Python `a or b` for an optional string `a`: `None` and `""` are falsy. -/
def orS (a : Option String) (b : String) : String :=
  match a with
  | none => b
  | some s => if s = "" then b else s

/-- Python `str` whitespace for `strip()`. -/
def isSpaceChar (c : Char) : Bool :=
  c = ' ' || c = '\t' || c = '\n' || c = '\r' || c = '\x0b' || c = '\x0c'

/-- `str.strip()` on the character list. -/
def stripChars (l : List Char) : List Char :=
  ((l.dropWhile isSpaceChar).reverse.dropWhile isSpaceChar).reverse

/-- `str.lower()` on one character (ASCII; every string the resolver
compares is ASCII). -/
def lowerChar (c : Char) : Char :=
  if 'A' ≤ c ∧ c ≤ 'Z' then Char.ofNat (c.toNat + 32) else c

/-- `str.upper()` on one character (ASCII). -/
def upperChar (c : Char) : Char :=
  if 'a' ≤ c ∧ c ≤ 'z' then Char.ofNat (c.toNat - 32) else c

/-- `s.lower()`. -/
def lower (s : String) : String := ⟨s.data.map lowerChar⟩

/-- `s.upper()`. -/
def upper (s : String) : String := ⟨s.data.map upperChar⟩

/-- `norm` from the source: `(s or "").strip().lower()` on a string already
defaulted to `""`. -/
def norm (s : String) : String := ⟨(stripChars s.data).map lowerChar⟩

/-- Python `needle in hay` on lists of characters (substring test). -/
def listIn (n : List Char) : List Char → Bool
  | [] => n.isEmpty
  | c :: r => n.isPrefixOf (c :: r) || listIn n r

/-- Python `needle in hay` for strings. -/
def strIn (needle hay : String) : Bool := listIn needle.data hay.data

/-- Python `s.startswith(p)`, written `startsW p s`. -/
def startsW (p s : String) : Bool := p.data.isPrefixOf s.data

/-- A raw catalog record (the JSON dict returned by the marketplace API),
restricted to the fields the resolver reads. -/
structure Rec where
  trackId : Option Nat := none
  bundleId : Option String := none
  trackName : Option String := none
  sellerName : Option String := none
  artistName : Option String := none
  primaryGenreName : Option String := none
  genres : List String := []
  languageCodesISO2A : List String := []
  releaseDate : Option String := none
deriving DecidableEq

/-- `rec.get("sellerName") or rec.get("artistName")` (no final default). -/
def sellerOrArtist (r : Rec) : Option String :=
  match r.sellerName with
  | none => r.artistName
  | some s => if s = "" then r.artistName else some s

/-- `HEALTHY_GENRES` from the source. -/
def HEALTHY_GENRES : List String := ["Health & Fitness", "Medical"]

/-- The `details` dict produced by `score_candidate`: one optional entry per
matching mode (present exactly when the mode is enabled) plus the three
bonuses and the total. -/
structure ScoreDetails where
  exact : Option ℚ := none
  startswith : Option ℚ := none
  contains : Option ℚ := none
  fuzzy : Option ℚ := none
  dev_bonus : ℚ := 0
  bundle_bonus : ℚ := 0
  genre_bonus : ℚ := 0
  total : ℚ := 0
deriving DecidableEq

/-- Python `max(l)` for a nonempty list, `0.0` when the list is empty
(mirroring `max(name_scores) if name_scores else 0.0`). -/
def pyMax : List ℚ → ℚ
  | [] => 0
  | x :: xs => xs.foldl max x

/-- The `exact` entry of `score_candidate`:
`100.0 if tn == qn or any(tn == a for a in alns) else 0.0`, present iff
`"exact" in match_modes`. -/
def exactEntry (match_modes : List String) (qn tn : String) (alns : List String) :
    Option ℚ :=
  if "exact" ∈ match_modes then
    some (if tn = qn ∨ ∃ a ∈ alns, tn = a then 100 else 0)
  else none

/-- The `startswith` entry:
`92.0 if (tn.startswith(qn) or any(tn.startswith(a) for a in alns)) else 0.0`. -/
def startswithEntry (match_modes : List String) (qn tn : String) (alns : List String) :
    Option ℚ :=
  if "startswith" ∈ match_modes then
    some (if startsW qn tn ∨ ∃ a ∈ alns, startsW a tn then 92 else 0)
  else none

/-- The `contains` entry:
`88.0 if (qn in tn or any(a in tn for a in alns)) else 0.0`. -/
def containsEntry (match_modes : List String) (qn tn : String) (alns : List String) :
    Option ℚ :=
  if "contains" ∈ match_modes then
    some (if strIn qn tn ∨ ∃ a ∈ alns, strIn a tn then 88 else 0)
  else none

/-- The `fuzzy` entry:
`max(WRatio(qname, tname), *(WRatio(a, tname) for a in alns)) if alns else
WRatio(qname, tname)`; note the source passes the raw `qname`/`tname` and the
normalized aliases to `WRatio`. -/
def fuzzyEntry (match_modes : List String) (qname tname : String) (alns : List String)
    (wr : String → String → ℚ) : Option ℚ :=
  if "fuzzy" ∈ match_modes then
    some (if alns ≠ [] then (alns.map fun a => wr a tname).foldl max (wr qname tname)
          else wr qname tname)
  else none

/-- Section 2 of `score_candidate` (developer-hint bonus).  A hint of `""`
models a falsy (`None` or empty) `developer_hint`. -/
def devBonusOf (developer_hint seller : String) (pr : String → String → ℚ) : ℚ :=
  if developer_hint ≠ "" then
    if strIn (norm developer_hint) (norm seller) then 8
    else if pr developer_hint seller ≥ 80 then 4 else 0
  else 0

/-- Section 3 of `score_candidate` (bundle-id-hint bonus). -/
def bundleBonusOf (bundle_hint bundle : String) : ℚ :=
  if bundle_hint ≠ "" then
    if norm bundle_hint = norm bundle then 25
    else if strIn (norm bundle_hint) (norm bundle) then 12 else 0
  else 0

/-- Section 4 of `score_candidate` (genre bonus):
`pgenre in HEALTHY_GENRES or (HEALTHY_GENRES & genres)`. -/
def genreBonusOf (pgenre : String) (genres : List String) : ℚ :=
  if pgenre ∈ HEALTHY_GENRES ∨ ∃ g ∈ genres, g ∈ HEALTHY_GENRES then 3 else 0

/-- `score_candidate` from the source.  `wr` models `fuzz.WRatio`, `pr`
models `fuzz.partial_ratio`; hints of `""` model falsy hints. -/
def score_candidate (qname : String) (cand : Rec) (match_modes : List String)
    (aliases : List String) (developer_hint bundle_hint : String)
    (wr pr : String → String → ℚ) : ℚ × ScoreDetails :=
  let tname := orS cand.trackName ""
  let seller := orS cand.sellerName (orS cand.artistName "")
  let bundle := orS cand.bundleId ""
  let pgenre := orS cand.primaryGenreName ""
  let qn := norm qname
  let tn := norm tname
  let alns := (aliases.filter fun a => a ≠ "").map norm
  let e := exactEntry match_modes qn tn alns
  let sw := startswithEntry match_modes qn tn alns
  let co := containsEntry match_modes qn tn alns
  let fz := fuzzyEntry match_modes qname tname alns wr
  let name_score := pyMax ([e, sw, co, fz].filterMap id)
  let dev_bonus := devBonusOf developer_hint seller pr
  let bundle_bonus := bundleBonusOf bundle_hint bundle
  let genre_bonus := genreBonusOf pgenre cand.genres
  let total := name_score + dev_bonus + bundle_bonus + genre_bonus
  (total, { exact := e, startswith := sw, contains := co, fuzzy := fz,
            dev_bonus := dev_bonus, bundle_bonus := bundle_bonus,
            genre_bonus := genre_bonus, total := total })

/-- A deduplicated candidate: the first-seen raw record (the `rec` dict) plus the accumulated
`_countries` set. -/
structure Cand where
  record : Rec
  countries : Finset String
deriving DecidableEq

/-- A scored candidate, as appended to `scored` in `main`:
`(rec-with-countries, total, details)`. -/
abbrev SC := Cand × ℚ × ScoreDetails

/-- The ordering used by `pick_winner`'s
`sorted(scored, key=lambda x: x[1], reverse=True)`: descending by total
score. -/
def scoreRel (a b : SC) : Prop := b.2.1 ≤ a.2.1

instance : DecidableRel scoreRel := fun a b => inferInstanceAs (Decidable (b.2.1 ≤ a.2.1))

instance : IsTotal SC scoreRel := ⟨fun a b => le_total b.2.1 a.2.1⟩

instance : IsTrans SC scoreRel := ⟨fun _ _ _ h₁ h₂ => le_trans h₂ h₁⟩

/-- `pick_winner` from the source.  Python's `sorted` is a stable sort and is
modelled by `List.insertionSort` (also stable) over `scoreRel`. -/
def pick_winner (scored : List SC) (min_score min_gap : ℚ) : Option SC × List SC :=
  match scored with
  | [] => (none, [])
  | _ :: _ =>
    match List.insertionSort scoreRel scored with
    | [] => (none, [])
    | top :: rest =>
      if top.2.1 < min_score then (none, top :: rest)
      else
        match rest with
        | [] => (some top, top :: rest)
        | second :: _ =>
          if top.2.1 - second.2.1 < min_gap then (none, top :: rest)
          else (some top, top :: rest)

/-- The spec's `Decision` datatype; `main` interprets `pick_winner`'s result
as `NoMatch` when there were no candidates, `Ambiguous` (with all ranked
candidates) when no winner was picked, `Confirmed` otherwise. -/
inductive Decision where
  | NoMatch : Decision
  | Ambiguous : List SC → Decision
  | Confirmed : SC → Decision
deriving DecidableEq

/-- The decision denoted by a `pick_winner` result. -/
def decisionOf (scored : List SC) (min_score min_gap : ℚ) : Decision :=
  match pick_winner scored min_score min_gap with
  | (some top, _) => .Confirmed top
  | (none, []) => .NoMatch
  | (none, ranked) => .Ambiguous ranked

/-- One input row produced by `load_inputs`. -/
structure Query where
  app_key : String
  query_name : String
  developer_hint : String
  bundle_hint : String
  aliases : List String

/-- The run configuration derived from the CLI arguments (countries in
configured order, `lang_map`, per-country limit, match modes, thresholds),
together with the two fuzzy-ratio oracles. -/
structure Config where
  countries : List String
  langMap : String → String
  limit : Nat
  match_mode : List String
  min_score : ℚ
  min_gap : ℚ
  wr : String → String → ℚ
  pr : String → String → ℚ

/-- `search_apps(term, country, lang, limit)`: `none` models the call raising
an exception, `some rs` a successful response. -/
abbrev SearchOracle := String → String → String → Nat → Option (List Rec)

/-- `lookup(track_id, country, lang)`: outer `none` models an exception,
`some none` a response with `resultCount == 0`, `some (some r)` a record. -/
abbrev LookupOracle := Option Nat → String → String → Option (Option Rec)

/-- The `results` used for one country in `main`: a failed `search_apps`
call is degraded to `[]` (the `except` branch). -/
def resultsOf (s : SearchOracle) (cfg : Config) (qname country : String) : List Rec :=
  match s qname country (cfg.langMap (lower country)) cfg.limit with
  | none => []
  | some rs => rs

/-- The body of `for rec in results` in `main`: a falsy `trackId` is skipped;
a fresh id inserts the record (plus `_countries = {country.upper()}`) at the
end of the insertion-ordered dict; an existing id only adds the country. -/
def addHit (country : String) (acc : List (Nat × Cand)) (r : Rec) : List (Nat × Cand) :=
  match r.trackId with
  | none => acc
  | some tid =>
    if tid = 0 then acc
    else if (acc.lookup tid).isSome then
      acc.map fun p =>
        if p.1 = tid then (p.1, ⟨p.2.record, insert (upper country) p.2.countries⟩) else p
    else acc ++ [(tid, ⟨r, {upper country}⟩)]

/-- `candidates_by_id` after the per-country collection loop of `main`. -/
def aggregateQuery (s : SearchOracle) (cfg : Config) (qname : String) : List (Nat × Cand) :=
  cfg.countries.foldl
    (fun acc country => (resultsOf s cfg qname country).foldl (addHit country) acc) []

/-- A `cand_rows` entry (audit output; keyed by the dict key `tid`). -/
structure CandRow where
  app_key : String
  query_name : String
  trackId : Nat
  bundleId : Option String
  trackName : Option String
  sellerName : Option String
  primaryGenreName : Option String
  countries_found : Finset String
  details : ScoreDetails
deriving DecidableEq

/-- A `needs_review_rows` entry. -/
structure ReviewRow where
  app_key : String
  query_name : String
  trackId : Option Nat
  bundleId : Option String
  trackName : Option String
  sellerName : Option String
  primaryGenreName : Option String
  countries_found : Finset String
  score_total : ℚ
  score_breakdown : ScoreDetails
deriving DecidableEq

/-- A `master_rows` entry (the confirmed ledger output). -/
structure MasterRow where
  app_key : String
  query_name : String
  trackId : Option Nat
  bundleId : Option String
  trackName : Option String
  sellerName : Option String
  primaryGenreName : Option String
  languageCodesISO2A : List String
  releaseDate : Option String
  countries_found : Finset String
  score_total : ℚ
  score_breakdown : ScoreDetails
deriving DecidableEq

def mkCandRow (q : Query) (tid : Nat) (c : Cand) (details : ScoreDetails) : CandRow :=
  { app_key := q.app_key, query_name := q.query_name, trackId := tid,
    bundleId := c.record.bundleId, trackName := c.record.trackName,
    sellerName := sellerOrArtist c.record,
    primaryGenreName := c.record.primaryGenreName,
    countries_found := c.countries, details := details }

def mkReviewRow (q : Query) (x : SC) : ReviewRow :=
  { app_key := q.app_key, query_name := q.query_name,
    trackId := x.1.record.trackId, bundleId := x.1.record.bundleId,
    trackName := x.1.record.trackName, sellerName := sellerOrArtist x.1.record,
    primaryGenreName := x.1.record.primaryGenreName,
    countries_found := x.1.countries, score_total := x.2.1, score_breakdown := x.2.2 }

/-- The emitted confirmed row: identification/metadata fields from `final`,
`countries_found` from the original candidate `orig`, score fields from the
original scoring. -/
def mkMasterRow (q : Query) (final : Rec) (orig : Cand) (total : ℚ)
    (details : ScoreDetails) : MasterRow :=
  { app_key := q.app_key, query_name := q.query_name,
    trackId := final.trackId, bundleId := final.bundleId,
    trackName := final.trackName, sellerName := sellerOrArtist final,
    primaryGenreName := final.primaryGenreName,
    languageCodesISO2A := final.languageCodesISO2A,
    releaseDate := final.releaseDate,
    countries_found := orig.countries, score_total := total,
    score_breakdown := details }

/-- The canonicalization loop of `main` over the remaining countries: a
lookup exception (`none`) is swallowed (`pass`), a missing record or a falsy
`bundleId` moves on to the next country, the first record with a truthy
`bundleId` becomes `final`; fallback is the search-derived record. -/
def findFinal (l : LookupOracle) (cfg : Config) (track_id : Option Nat)
    (fallback : Rec) : List String → Rec
  | [] => fallback
  | c :: cs =>
    match l track_id c (cfg.langMap (lower c)) with
    | none => findFinal l cfg track_id fallback cs
    | some none => findFinal l cfg track_id fallback cs
    | some (some looked) =>
      if orS looked.bundleId "" = "" then findFinal l cfg track_id fallback cs
      else looked

/-- The scoring loop of `main`: each aggregated candidate with its dict key
and its `score_candidate` result. -/
def scoredFull (s : SearchOracle) (cfg : Config) (q : Query) :
    List (Nat × Cand × ℚ × ScoreDetails) :=
  (aggregateQuery s cfg q.query_name).map fun p =>
    let td := score_candidate q.query_name p.2.record cfg.match_mode q.aliases
      q.developer_hint q.bundle_hint cfg.wr cfg.pr
    (p.1, p.2, td.1, td.2)

/-- The `scored` list passed to `pick_winner`. -/
def scoredOf (s : SearchOracle) (cfg : Config) (q : Query) : List SC :=
  (scoredFull s cfg q).map fun x => (x.2.1, x.2.2.1, x.2.2.2)

/-- The winner `pick_winner` selects for one query (`none` when the query is
routed to review / no-match). -/
def decideQuery (s : SearchOracle) (cfg : Config) (q : Query) : Option SC :=
  (pick_winner (scoredOf s cfg q) cfg.min_score cfg.min_gap).1

/-- The identifier a query confirms, when it confirms one. -/
def confirmedIdOf (s : SearchOracle) (cfg : Config) (q : Query) : Option (Option Nat) :=
  (decideQuery s cfg q).map fun w => w.1.record.trackId

/-- The mutable state of `main`'s resolution loop: the three output tables
plus `existing_track_ids`. -/
structure RunState where
  master : List MasterRow
  needs_review : List ReviewRow
  cand_rows : List CandRow
  ledger : Finset (Option Nat)
deriving DecidableEq

def initState : RunState := ⟨[], [], [], ∅⟩

/-- One iteration of the `for row in rows` loop of `main`. -/
def processQuery (s : SearchOracle) (l : LookupOracle) (cfg : Config)
    (st : RunState) (q : Query) : RunState :=
  let sf := scoredFull s cfg q
  let candRows := sf.map fun x => mkCandRow q x.1 x.2.1 x.2.2.2
  let scored := sf.map fun x => (x.2.1, x.2.2.1, x.2.2.2)
  match pick_winner scored cfg.min_score cfg.min_gap with
  | (none, ranked) =>
    { st with cand_rows := st.cand_rows ++ candRows,
              needs_review := st.needs_review ++ (ranked.take 5).map (mkReviewRow q) }
  | (some w, _) =>
    let track_id := w.1.record.trackId
    if track_id ∈ st.ledger then
      { st with cand_rows := st.cand_rows ++ candRows }
    else
      let final := findFinal l cfg track_id w.1.record cfg.countries
      { master := st.master ++ [mkMasterRow q final w.1 w.2.1 w.2.2],
        needs_review := st.needs_review,
        cand_rows := st.cand_rows ++ candRows,
        ledger := insert track_id st.ledger }

/-- The whole resolution loop of `main` over the loaded input rows. -/
def runMain (s : SearchOracle) (l : LookupOracle) (cfg : Config)
    (queries : List Query) : RunState :=
  queries.foldl (processQuery s l cfg) initState

/-! ### Lemmas about the ranking performed by `pick_winner` -/

/-- Stability of `orderedInsert` at one score value: inserting `x` leaves the
subsequence of entries scoring `v` unchanged except for `x` being prepended
to it when `x` itself scores `v`. -/
theorem filter_orderedInsert (v : ℚ) (x : SC) (l : List SC) :
    (List.orderedInsert scoreRel x l).filter (fun y => y.2.1 = v)
      = if x.2.1 = v then x :: l.filter (fun y => y.2.1 = v)
        else l.filter (fun y => y.2.1 = v) := by
  induction l with
  | nil => by_cases hx : x.2.1 = v <;> simp [List.orderedInsert, hx]
  | cons b t ih =>
    by_cases hr : scoreRel x b
    · rw [List.orderedInsert, if_pos hr]
      by_cases hx : x.2.1 = v <;> simp [List.filter_cons, hx]
    · rw [List.orderedInsert, if_neg hr]
      have hb : ¬ (x.2.1 = v ∧ b.2.1 = v) := by
        rintro ⟨hx, hbv⟩
        exact hr (by simp [scoreRel, hx, hbv])
      by_cases hbv : b.2.1 = v
      · have hx : ¬ x.2.1 = v := fun hx => hb ⟨hx, hbv⟩
        simp [List.filter_cons, hbv, ih, hx]
      · by_cases hx : x.2.1 = v <;> simp [List.filter_cons, hbv, ih, hx]

/-- Stability of the sort used by `pick_winner`: for every score value the
entries carrying that score appear in the sorted list exactly in their
original (insertion) order. -/
theorem filter_insertionSort (v : ℚ) (l : List SC) :
    (List.insertionSort scoreRel l).filter (fun y => y.2.1 = v)
      = l.filter (fun y => y.2.1 = v) := by
  induction l with
  | nil => rfl
  | cons a t ih =>
    rw [List.insertionSort, filter_orderedInsert, List.filter_cons]
    by_cases ha : a.2.1 = v <;> simp [ha, ih]

/-- The ranked list `pick_winner` returns is the stable descending sort of
its input (and `[]` for an empty input). -/
theorem pick_winner_snd (scored : List SC) (ms mg : ℚ) :
    (pick_winner scored ms mg).2 = List.insertionSort scoreRel scored := by
  cases scored with
  | nil => rfl
  | cons a l =>
    unfold pick_winner
    rcases h : List.insertionSort scoreRel (a :: l) with _ | ⟨top, rest⟩
    · simp
    · cases rest <;> (dsimp only; split_ifs <;> rfl)

/-- Computation rule for `pick_winner` once the sorted list is known. -/
theorem pick_winner_eq (scored : List SC) (ms mg : ℚ) (top : SC) (rest : List SC)
    (h : List.insertionSort scoreRel scored = top :: rest) :
    pick_winner scored ms mg =
      (if top.2.1 < ms then none
       else
         match rest with
         | [] => some top
         | second :: _ => if top.2.1 - second.2.1 < mg then none else some top,
       top :: rest) := by
  cases scored with
  | nil => simp at h
  | cons a l =>
    unfold pick_winner
    rw [h]
    dsimp only
    cases rest <;> (dsimp only; split_ifs <;> rfl)

/-- A candidate placeholder used in concrete decision-policy checks. -/
def blankCand : Cand := ⟨{}, ∅⟩

/-- C1: the Decision Policy ranks candidates by total score descending with a
stable sort (ties keep insertion order: for every score value the entries
carrying it keep their original relative order), returns `NoMatch` on an
empty set, `Ambiguous` with all ranked candidates when the top score is below
`min_score` or (with at least two candidates) when the gap to the runner-up
is strictly below `min_gap`, and `Confirmed top` otherwise; in particular
candidates scored 85 and 80 with `min_score = 80`, `min_gap = 8` come out
`Ambiguous`. -/
theorem decision_policy_correct (scored : List SC) (ms mg : ℚ) :
    ((pick_winner scored ms mg).2).Perm scored
    ∧ List.Sorted scoreRel (pick_winner scored ms mg).2
    ∧ (∀ v : ℚ, ((pick_winner scored ms mg).2.filter fun y => y.2.1 = v)
          = scored.filter fun y => y.2.1 = v)
    ∧ (scored = [] → decisionOf scored ms mg = .NoMatch)
    ∧ (∀ top rest, (pick_winner scored ms mg).2 = top :: rest →
        (top.2.1 < ms → decisionOf scored ms mg = .Ambiguous (top :: rest))
        ∧ (ms ≤ top.2.1 →
            (∀ second rest2, rest = second :: rest2 → top.2.1 - second.2.1 < mg →
              decisionOf scored ms mg = .Ambiguous (top :: rest))
            ∧ ((∀ second rest2, rest = second :: rest2 → mg ≤ top.2.1 - second.2.1) →
              decisionOf scored ms mg = .Confirmed top)))
    ∧ decisionOf [(blankCand, 85, {}), (blankCand, 80, {})] 80 8
        = .Ambiguous [(blankCand, 85, {}), (blankCand, 80, {})] := by
  have hsort : List.insertionSort scoreRel
      [(blankCand, 85, ({} : ScoreDetails)), (blankCand, 80, ({} : ScoreDetails))]
        = [(blankCand, 85, {}), (blankCand, 80, {})] := by decide
  have hconc : decisionOf [(blankCand, 85, {}), (blankCand, 80, {})] 80 8
      = .Ambiguous [(blankCand, 85, {}), (blankCand, 80, {})] := by
    unfold decisionOf
    rw [pick_winner_eq _ 80 8 _ _ hsort]
    dsimp only
    norm_num
  refine ⟨?_, ?_, ?_, ?_, ?_, hconc⟩
  · rw [pick_winner_snd]; exact List.perm_insertionSort scoreRel scored
  · rw [pick_winner_snd]; exact List.sorted_insertionSort scoreRel scored
  · intro v; rw [pick_winner_snd]; exact filter_insertionSort v scored
  · rintro rfl; rfl
  · intro top rest h
    rw [pick_winner_snd] at h
    have hpw := pick_winner_eq scored ms mg top rest h
    refine ⟨?_, ?_⟩
    · intro hlt
      unfold decisionOf
      rw [hpw, if_pos hlt]
    · intro hge
      constructor
      · rintro second rest2 rfl hgap
        unfold decisionOf
        rw [hpw, if_neg (not_lt.mpr hge)]
        dsimp only
        rw [if_pos hgap]
      · intro hnog
        unfold decisionOf
        rw [hpw, if_neg (not_lt.mpr hge)]
        cases rest with
        | nil => rfl
        | cons second rest2 =>
          dsimp only
          rw [if_neg (not_lt.mpr (hnog second rest2 rfl))]

/-- Witness for C1: the 85/80 margin example, derived by applying the
decision-policy theorem at that concrete input. -/
theorem decision_policy_correct_witness :
    decisionOf [(blankCand, 85, {}), (blankCand, 80, {})] 80 8
      = .Ambiguous [(blankCand, 85, {}), (blankCand, 80, {})] := by
  obtain ⟨-, -, -, -, hmain, -⟩ :=
    decision_policy_correct [(blankCand, 85, {}), (blankCand, 80, {})] 80 8
  have h2 := hmain (blankCand, 85, {}) [(blankCand, 80, {})]
    (by rw [pick_winner_snd]; decide)
  exact (h2.2 (by norm_num)).1 (blankCand, 80, ({} : ScoreDetails)) [] rfl (by norm_num)

/-! ### The spec's scoring table (second definition, following the spec's
words, for the refinement claim about `score_candidate`) -/

/-- A constant-zero stand-in for the fuzzy-ratio oracles in concrete runs. -/
def zeroRatio : String → String → ℚ := fun _ _ => 0

/-- Spec table: "exact — name equals query or any alias exactly — 100". -/
def specExactScore (qn tn : String) (alns : List String) : ℚ :=
  if tn = qn ∨ ∃ a ∈ alns, tn = a then 100 else 0

/-- Spec table: "startswith — name starts with query or alias — 92". -/
def specStartswithScore (qn tn : String) (alns : List String) : ℚ :=
  if startsW qn tn ∨ ∃ a ∈ alns, startsW a tn then 92 else 0

/-- Spec table: "contains — query or alias is a substring of name — 88". -/
def specContainsScore (qn tn : String) (alns : List String) : ℚ :=
  if strIn qn tn ∨ ∃ a ∈ alns, strIn a tn then 88 else 0

/-- Spec table: "fuzzy — best fuzzy similarity ratio (0–100 scale) over query
and all aliases vs. name — raw ratio". -/
def specFuzzyScore (qname tname : String) (alns : List String)
    (wr : String → String → ℚ) : ℚ :=
  pyMax (wr qname tname :: alns.map fun a => wr a tname)

/-- The four spec modes with their contributions for one candidate (the
first three on normalized names, per the spec's "normalized" wording). -/
def specModeTable (qname tname : String) (alns : List String)
    (wr : String → String → ℚ) : List (String × ℚ) :=
  [("exact", specExactScore (norm qname) (norm tname) alns),
   ("startswith", specStartswithScore (norm qname) (norm tname) alns),
   ("contains", specContainsScore (norm qname) (norm tname) alns),
   ("fuzzy", specFuzzyScore qname tname alns wr)]

/-- Spec: "name_score = max over enabled modes (0 if none fire)". -/
def specNameScore (qname tname : String) (match_modes : List String)
    (alns : List String) (wr : String → String → ℚ) : ℚ :=
  pyMax (((specModeTable qname tname alns wr).filter
    fun m => m.1 ∈ match_modes).map Prod.snd)

theorem exactEntry_eq (modes : List String) (qn tn : String) (alns : List String) :
    exactEntry modes qn tn alns
      = if "exact" ∈ modes then some (specExactScore qn tn alns) else none := rfl

theorem startswithEntry_eq (modes : List String) (qn tn : String) (alns : List String) :
    startswithEntry modes qn tn alns
      = if "startswith" ∈ modes then some (specStartswithScore qn tn alns) else none := rfl

theorem containsEntry_eq (modes : List String) (qn tn : String) (alns : List String) :
    containsEntry modes qn tn alns
      = if "contains" ∈ modes then some (specContainsScore qn tn alns) else none := rfl

theorem fuzzyEntry_eq (modes : List String) (qname tname : String) (alns : List String)
    (wr : String → String → ℚ) :
    fuzzyEntry modes qname tname alns wr
      = if "fuzzy" ∈ modes then some (specFuzzyScore qname tname alns wr) else none := by
  unfold fuzzyEntry specFuzzyScore pyMax
  cases alns <;> simp

/-- The option list built by the code equals the spec's filtered mode table. -/
theorem filterMap_entries (modes : List String) (s1 s2 s3 s4 : ℚ) :
    ([if "exact" ∈ modes then some s1 else none,
      if "startswith" ∈ modes then some s2 else none,
      if "contains" ∈ modes then some s3 else none,
      if "fuzzy" ∈ modes then some s4 else none].filterMap id)
      = ([("exact", s1), ("startswith", s2), ("contains", s3), ("fuzzy", s4)].filter
          fun m => m.1 ∈ modes).map Prod.snd := by
  by_cases h1 : "exact" ∈ modes <;> by_cases h2 : "startswith" ∈ modes <;>
    by_cases h3 : "contains" ∈ modes <;> by_cases h4 : "fuzzy" ∈ modes <;>
      simp [h1, h2, h3, h4]

/-- C2: for every query, candidate, enabled-mode set, aliases and hints, the
total equals name score plus the three bonuses, the name score is the
maximum over only the enabled modes' contributions (per the spec's table on
normalized names, with the mode entries in the breakdown firing exactly when
enabled), and it is 0 when no mode is enabled. -/
theorem scoring_decomposition (qname : String) (cand : Rec) (match_modes : List String)
    (aliases : List String) (developer_hint bundle_hint : String)
    (wr pr : String → String → ℚ) (total : ℚ) (d : ScoreDetails)
    (h : score_candidate qname cand match_modes aliases developer_hint bundle_hint wr pr
          = (total, d)) :
    total = specNameScore qname (orS cand.trackName "") match_modes
        ((aliases.filter fun a => a ≠ "").map norm) wr
      + d.dev_bonus + d.bundle_bonus + d.genre_bonus
    ∧ d.total = total
    ∧ d.exact = exactEntry match_modes (norm qname) (norm (orS cand.trackName ""))
        ((aliases.filter fun a => a ≠ "").map norm)
    ∧ d.startswith = startswithEntry match_modes (norm qname) (norm (orS cand.trackName ""))
        ((aliases.filter fun a => a ≠ "").map norm)
    ∧ d.contains = containsEntry match_modes (norm qname) (norm (orS cand.trackName ""))
        ((aliases.filter fun a => a ≠ "").map norm)
    ∧ d.fuzzy = fuzzyEntry match_modes qname (orS cand.trackName "")
        ((aliases.filter fun a => a ≠ "").map norm) wr
    ∧ ("exact" ∉ match_modes → "startswith" ∉ match_modes → "contains" ∉ match_modes →
        "fuzzy" ∉ match_modes → total = d.dev_bonus + d.bundle_bonus + d.genre_bonus) := by
  have ht : total = (score_candidate qname cand match_modes aliases developer_hint
      bundle_hint wr pr).1 := by rw [h]
  have hd : d = (score_candidate qname cand match_modes aliases developer_hint
      bundle_hint wr pr).2 := by rw [h]
  subst ht; subst hd
  unfold score_candidate specNameScore specModeTable
  dsimp only
  rw [exactEntry_eq, startswithEntry_eq, containsEntry_eq, fuzzyEntry_eq, filterMap_entries]
  refine ⟨rfl, rfl, rfl, rfl, rfl, rfl, ?_⟩
  intro h1 h2 h3 h4
  simp [h1, h2, h3, h4, pyMax]

/-- Witness for C2: with no recognised mode enabled the total is exactly the
sum of the three bonuses, at a concrete input. -/
theorem scoring_decomposition_witness :
    (score_candidate "x" {} ["zzz"] [] "" "" zeroRatio zeroRatio).1
      = (score_candidate "x" {} ["zzz"] [] "" "" zeroRatio zeroRatio).2.dev_bonus
        + (score_candidate "x" {} ["zzz"] [] "" "" zeroRatio zeroRatio).2.bundle_bonus
        + (score_candidate "x" {} ["zzz"] [] "" "" zeroRatio zeroRatio).2.genre_bonus :=
  (scoring_decomposition "x" {} ["zzz"] [] "" "" zeroRatio zeroRatio _ _ rfl).2.2.2.2.2.2
    (by decide) (by decide) (by decide) (by decide)

/-! ### The spec's end-to-end scenario (claim C6) -/

/-- Candidate A of the spec scenario: name "Period Tracker Lite", bundle
`com.acme.period`. -/
def scnRecA : Rec :=
  { trackId := some 1, bundleId := some "com.acme.period",
    trackName := some "Period Tracker Lite" }

/-- Candidate B of the spec scenario: name "Period Tracker", bundle
`com.other.app`. -/
def scnRecB : Rec :=
  { trackId := some 2, bundleId := some "com.other.app",
    trackName := some "Period Tracker" }

def scnCandA : Cand := ⟨scnRecA, {"GB"}⟩

def scnCandB : Cand := ⟨scnRecB, {"GB"}⟩

/-- Candidate A's scoring in the scenario (exact and contains enabled, query
"Period Tracker", bundle hint `com.acme.period`, no other hints). -/
def scnScoreA : ℚ × ScoreDetails :=
  score_candidate "Period Tracker" scnRecA ["exact", "contains"] [] ""
    "com.acme.period" zeroRatio zeroRatio

/-- Candidate B's scoring in the scenario. -/
def scnScoreB : ℚ × ScoreDetails :=
  score_candidate "Period Tracker" scnRecB ["exact", "contains"] [] ""
    "com.acme.period" zeroRatio zeroRatio

/-- C6: in the spec's scenario, A scores 88 (contains) + 25 (exact bundle
match) = 113, B scores 100 (exact name) + 0 = 100, and with
`min_score = 80`, `min_gap = 8` the decision is `Confirmed A` (gap 13). -/
theorem margin_scenario_confirmed :
    scnScoreA.1 = 113 ∧ scnScoreA.2.contains = some 88
    ∧ scnScoreA.2.bundle_bonus = 25 ∧ scnScoreA.2.dev_bonus = 0
    ∧ scnScoreA.2.genre_bonus = 0
    ∧ scnScoreB.1 = 100 ∧ scnScoreB.2.exact = some 100
    ∧ scnScoreB.2.bundle_bonus = 0
    ∧ decisionOf [(scnCandA, scnScoreA.1, scnScoreA.2),
                  (scnCandB, scnScoreB.1, scnScoreB.2)] 80 8
        = .Confirmed (scnCandA, scnScoreA.1, scnScoreA.2) := by
  have hA1 : scnScoreA.1 = 113 := by
    simp +decide only [scnScoreA, score_candidate, exactEntry, startswithEntry,
      containsEntry, fuzzyEntry, devBonusOf, bundleBonusOf, genreBonusOf,
      pyMax, orS, List.filterMap, max_def]
    norm_num
  have hB1 : scnScoreB.1 = 100 := by
    simp +decide only [scnScoreB, score_candidate, exactEntry, startswithEntry,
      containsEntry, fuzzyEntry, devBonusOf, bundleBonusOf, genreBonusOf,
      pyMax, orS, List.filterMap, max_def]
    norm_num
  refine ⟨hA1, by decide, by decide, by decide, by decide, hB1, by decide, by decide, ?_⟩
  have hsort : List.insertionSort scoreRel
      [(scnCandA, scnScoreA.1, scnScoreA.2), (scnCandB, scnScoreB.1, scnScoreB.2)]
        = [(scnCandA, scnScoreA.1, scnScoreA.2), (scnCandB, scnScoreB.1, scnScoreB.2)] := by
    simp only [List.insertionSort, List.orderedInsert]
    rw [if_pos (by rw [scoreRel]; dsimp only; rw [hA1, hB1]; norm_num)]
  unfold decisionOf
  rw [pick_winner_eq _ 80 8 _ _ hsort]
  dsimp only
  rw [if_neg (by rw [hA1]; norm_num),
      if_neg (by rw [hA1, hB1]; norm_num)]

/-! ### Determinism of scoring and the decision policy (claim C8) -/

/-- C8: scoring and the Decision Policy are deterministic — on identical
queries, candidates, modes, aliases, hints, ratio oracles, candidate sets
and thresholds they reproduce identical scores, breakdowns and Decision. -/
theorem scoring_and_decision_deterministic
    (qn1 qn2 : String) (cand1 cand2 : Rec)
    (modes1 modes2 aliases1 aliases2 : List String)
    (dev1 dev2 bun1 bun2 : String) (wr1 wr2 pr1 pr2 : String → String → ℚ)
    (scored1 scored2 : List SC) (ms1 ms2 mg1 mg2 : ℚ)
    (hq : qn1 = qn2) (hc : cand1 = cand2) (hm : modes1 = modes2)
    (ha : aliases1 = aliases2) (hd : dev1 = dev2) (hb : bun1 = bun2)
    (hwr : wr1 = wr2) (hpr : pr1 = pr2) (hs : scored1 = scored2)
    (hms : ms1 = ms2) (hmg : mg1 = mg2) :
    score_candidate qn1 cand1 modes1 aliases1 dev1 bun1 wr1 pr1
      = score_candidate qn2 cand2 modes2 aliases2 dev2 bun2 wr2 pr2
    ∧ pick_winner scored1 ms1 mg1 = pick_winner scored2 ms2 mg2
    ∧ decisionOf scored1 ms1 mg1 = decisionOf scored2 ms2 mg2 := by
  subst hq hc hm ha hd hb hwr hpr hs hms hmg
  exact ⟨rfl, rfl, rfl⟩

/-- Witness for C8 at a concrete input. -/
theorem scoring_and_decision_deterministic_witness :
    decisionOf [(blankCand, 90, {})] 80 8 = decisionOf [(blankCand, 90, {})] 80 8 :=
  (scoring_and_decision_deterministic "a" "a" {} {} [] [] [] [] "" "" "" ""
    zeroRatio zeroRatio zeroRatio zeroRatio
    [(blankCand, 90, {})] [(blankCand, 90, {})] 80 80 8 8
    rfl rfl rfl rfl rfl rfl rfl rfl rfl rfl rfl).2.2

/-! ### Projection bridges and bounds for `score_candidate` (used by C9) -/

/-- The total returned by `score_candidate`, re-expressed through the
breakdown it returns. -/
theorem score_fst_eq (qname : String) (cand : Rec) (match_modes aliases : List String)
    (dev bun : String) (wr pr : String → String → ℚ) :
    (score_candidate qname cand match_modes aliases dev bun wr pr).1
      = pyMax ([(score_candidate qname cand match_modes aliases dev bun wr pr).2.exact,
                (score_candidate qname cand match_modes aliases dev bun wr pr).2.startswith,
                (score_candidate qname cand match_modes aliases dev bun wr pr).2.contains,
                (score_candidate qname cand match_modes aliases dev bun wr pr).2.fuzzy].filterMap id)
        + (score_candidate qname cand match_modes aliases dev bun wr pr).2.dev_bonus
        + (score_candidate qname cand match_modes aliases dev bun wr pr).2.bundle_bonus
        + (score_candidate qname cand match_modes aliases dev bun wr pr).2.genre_bonus := rfl

theorem score_startswith_eq (qname : String) (cand : Rec) (match_modes aliases : List String)
    (dev bun : String) (wr pr : String → String → ℚ) :
    (score_candidate qname cand match_modes aliases dev bun wr pr).2.startswith
      = startswithEntry match_modes (norm qname) (norm (orS cand.trackName ""))
          ((aliases.filter fun a => a ≠ "").map norm) := rfl

theorem score_contains_eq (qname : String) (cand : Rec) (match_modes aliases : List String)
    (dev bun : String) (wr pr : String → String → ℚ) :
    (score_candidate qname cand match_modes aliases dev bun wr pr).2.contains
      = containsEntry match_modes (norm qname) (norm (orS cand.trackName ""))
          ((aliases.filter fun a => a ≠ "").map norm) := rfl

theorem le_foldl_max (a : ℚ) (t : List ℚ) : a ≤ t.foldl max a := by
  induction t generalizing a with
  | nil => exact le_refl a
  | cons b t ih => exact le_trans (le_max_left a b) (ih (max a b))

theorem mem_le_foldl_max (x a : ℚ) (t : List ℚ) (hx : x ∈ t) : x ≤ t.foldl max a := by
  induction t generalizing a with
  | nil => cases hx
  | cons b t ih =>
    rcases List.mem_cons.mp hx with rfl | h
    · exact le_trans (le_max_right a x) (le_foldl_max _ t)
    · exact ih _ h

/-- Any member of the list bounds Python's `max` from below. -/
theorem pyMax_ge (x : ℚ) (l : List ℚ) (hx : x ∈ l) : x ≤ pyMax l := by
  cases l with
  | nil => cases hx
  | cons a t =>
    rcases List.mem_cons.mp hx with rfl | h
    · exact le_foldl_max x t
    · exact mem_le_foldl_max x a t h

theorem devBonusOf_nonneg (d s : String) (pr : String → String → ℚ) :
    0 ≤ devBonusOf d s pr := by
  unfold devBonusOf; split_ifs <;> norm_num

theorem bundleBonusOf_nonneg (b s : String) : 0 ≤ bundleBonusOf b s := by
  unfold bundleBonusOf; split_ifs <;> norm_num

theorem genreBonusOf_nonneg (p : String) (g : List String) : 0 ≤ genreBonusOf p g := by
  unfold genreBonusOf; split_ifs <;> norm_num

/-- Python `"".startswith(p)` for empty `p` is always true. -/
theorem listIn_nil (l : List Char) : listIn [] l = true := by cases l <;> rfl

theorem data_empty_string : ("" : String).data = [] := by decide

theorem startsW_nil (s : String) : startsW "" s = true := by
  unfold startsW
  rw [data_empty_string]
  cases s.data <;> rfl

theorem strIn_nil (s : String) : strIn "" s = true := by
  unfold strIn
  rw [data_empty_string]
  exact listIn_nil s.data

/-! ### Claim C9: empty or whitespace-only query names -/

/-- C9: when the normalized query name is empty, the startswith and contains
conditions hold against every candidate name, so with startswith enabled the
breakdown's startswith entry is 92 and the total is at least 92; with
contains enabled the contains entry is 88 and the total is at least 88; with
only contains enabled the name score is exactly 88. -/
theorem empty_query_scores_everything (qname : String) (cand : Rec)
    (match_modes aliases : List String) (dev bun : String)
    (wr pr : String → String → ℚ) (hq : norm qname = "") :
    startsW (norm qname) (norm (orS cand.trackName "")) = true
    ∧ strIn (norm qname) (norm (orS cand.trackName "")) = true
    ∧ ("startswith" ∈ match_modes →
        (score_candidate qname cand match_modes aliases dev bun wr pr).2.startswith = some 92
        ∧ 92 ≤ (score_candidate qname cand match_modes aliases dev bun wr pr).1)
    ∧ ("contains" ∈ match_modes →
        (score_candidate qname cand match_modes aliases dev bun wr pr).2.contains = some 88
        ∧ 88 ≤ (score_candidate qname cand match_modes aliases dev bun wr pr).1)
    ∧ (match_modes = ["contains"] →
        (score_candidate qname cand match_modes aliases dev bun wr pr).1
          = 88 + (score_candidate qname cand match_modes aliases dev bun wr pr).2.dev_bonus
            + (score_candidate qname cand match_modes aliases dev bun wr pr).2.bundle_bonus
            + (score_candidate qname cand match_modes aliases dev bun wr pr).2.genre_bonus) := by
  have hdev : 0 ≤ (score_candidate qname cand match_modes aliases dev bun wr pr).2.dev_bonus :=
    devBonusOf_nonneg _ _ _
  have hbun : 0 ≤ (score_candidate qname cand match_modes aliases dev bun wr pr).2.bundle_bonus :=
    bundleBonusOf_nonneg _ _
  have hgen : 0 ≤ (score_candidate qname cand match_modes aliases dev bun wr pr).2.genre_bonus :=
    genreBonusOf_nonneg _ _
  refine ⟨by rw [hq]; exact startsW_nil _, by rw [hq]; exact strIn_nil _, ?_, ?_, ?_⟩
  · intro hmem
    have hentry : (score_candidate qname cand match_modes aliases dev bun wr pr).2.startswith
        = some 92 := by
      rw [score_startswith_eq]
      unfold startswithEntry
      rw [if_pos hmem, if_pos (Or.inl (by rw [hq]; exact startsW_nil _))]
    refine ⟨hentry, ?_⟩
    rw [score_fst_eq, hentry]
    have h92 : (92 : ℚ) ∈
        ([(score_candidate qname cand match_modes aliases dev bun wr pr).2.exact,
          some 92,
          (score_candidate qname cand match_modes aliases dev bun wr pr).2.contains,
          (score_candidate qname cand match_modes aliases dev bun wr pr).2.fuzzy].filterMap id) := by
      simp
    have := pyMax_ge 92 _ h92
    linarith
  · intro hmem
    have hentry : (score_candidate qname cand match_modes aliases dev bun wr pr).2.contains
        = some 88 := by
      rw [score_contains_eq]
      unfold containsEntry
      rw [if_pos hmem, if_pos (Or.inl (by rw [hq]; exact strIn_nil _))]
    refine ⟨hentry, ?_⟩
    rw [score_fst_eq, hentry]
    have h88 : (88 : ℚ) ∈
        ([(score_candidate qname cand match_modes aliases dev bun wr pr).2.exact,
          (score_candidate qname cand match_modes aliases dev bun wr pr).2.startswith,
          some 88,
          (score_candidate qname cand match_modes aliases dev bun wr pr).2.fuzzy].filterMap id) := by
      simp
    have := pyMax_ge 88 _ h88
    linarith
  · rintro rfl
    rw [score_fst_eq]
    have he : (score_candidate qname cand ["contains"] aliases dev bun wr pr).2.exact
        = none := rfl
    have hs : (score_candidate qname cand ["contains"] aliases dev bun wr pr).2.startswith
        = none := rfl
    have hf : (score_candidate qname cand ["contains"] aliases dev bun wr pr).2.fuzzy
        = none := rfl
    have hc : (score_candidate qname cand ["contains"] aliases dev bun wr pr).2.contains
        = some 88 := by
      rw [score_contains_eq]
      unfold containsEntry
      rw [if_pos (by decide), if_pos (Or.inl (by rw [hq]; exact strIn_nil _))]
    rw [he, hs, hf, hc]
    simp [pyMax]

/-- Witness for C9: the whitespace query "  " against an arbitrary named
candidate scores at least 92 with startswith enabled. -/
theorem empty_query_scores_everything_witness :
    norm "  " = ""
    ∧ 92 ≤ (score_candidate "  " { trackName := some "Some App" }
        ["startswith", "contains"] [] "" "" zeroRatio zeroRatio).1 :=
  ⟨by decide,
   ((empty_query_scores_everything "  " { trackName := some "Some App" }
      ["startswith", "contains"] [] "" "" zeroRatio zeroRatio (by decide)).2.2.1
      (by decide)).2⟩

/-! ### Branch lemmas for `processQuery` and the canonicalization loop -/

/-- `processQuery` when the decision is Confirmed on a fresh identifier:
the identifier is inserted into the ledger and one master row is appended,
canonicalized through `findFinal`. -/
theorem processQuery_confirmed (s : SearchOracle) (l : LookupOracle) (cfg : Config)
    (st : RunState) (q : Query) (w : SC)
    (hw : decideQuery s cfg q = some w) (hnew : w.1.record.trackId ∉ st.ledger) :
    processQuery s l cfg st q =
      { master := st.master ++ [mkMasterRow q
          (findFinal l cfg w.1.record.trackId w.1.record cfg.countries) w.1 w.2.1 w.2.2],
        needs_review := st.needs_review,
        cand_rows := st.cand_rows
          ++ (scoredFull s cfg q).map fun x => mkCandRow q x.1 x.2.1 x.2.2.2,
        ledger := insert w.1.record.trackId st.ledger } := by
  unfold decideQuery scoredOf at hw
  unfold processQuery
  dsimp only
  rcases hp : pick_winner ((scoredFull s cfg q).map fun x => (x.2.1, x.2.2.1, x.2.2.2))
      cfg.min_score cfg.min_gap with ⟨wo, rk⟩
  rw [hp] at hw
  dsimp only at hw
  subst hw
  rw [hp]
  dsimp only
  rw [if_neg hnew]

/-- `processQuery` when the decision is Confirmed but the identifier is
already in the ledger: only audit rows are appended. -/
theorem processQuery_skip (s : SearchOracle) (l : LookupOracle) (cfg : Config)
    (st : RunState) (q : Query) (w : SC)
    (hw : decideQuery s cfg q = some w) (hmem : w.1.record.trackId ∈ st.ledger) :
    processQuery s l cfg st q =
      { st with cand_rows := st.cand_rows
          ++ (scoredFull s cfg q).map fun x => mkCandRow q x.1 x.2.1 x.2.2.2 } := by
  unfold decideQuery scoredOf at hw
  unfold processQuery
  dsimp only
  rcases hp : pick_winner ((scoredFull s cfg q).map fun x => (x.2.1, x.2.2.1, x.2.2.2))
      cfg.min_score cfg.min_gap with ⟨wo, rk⟩
  rw [hp] at hw
  dsimp only at hw
  subst hw
  rw [hp]
  dsimp only
  rw [if_pos hmem]

/-- `processQuery` when no winner is picked: audit rows plus at most five
review rows are appended. -/
theorem processQuery_review (s : SearchOracle) (l : LookupOracle) (cfg : Config)
    (st : RunState) (q : Query)
    (hw : decideQuery s cfg q = none) :
    processQuery s l cfg st q =
      { st with
        cand_rows := st.cand_rows
          ++ (scoredFull s cfg q).map fun x => mkCandRow q x.1 x.2.1 x.2.2.2,
        needs_review := st.needs_review
          ++ (((pick_winner (scoredOf s cfg q) cfg.min_score cfg.min_gap).2).take 5).map
              (mkReviewRow q) } := by
  unfold decideQuery at hw
  unfold processQuery
  dsimp only
  rcases hp : pick_winner ((scoredFull s cfg q).map fun x => (x.2.1, x.2.2.1, x.2.2.2))
      cfg.min_score cfg.min_gap with ⟨wo, rk⟩
  unfold scoredOf at hw ⊢
  rw [hp] at hw ⊢
  dsimp only at hw
  subst hw
  dsimp only

/-- The ledger after one query: the confirmed identifier (if any) is
inserted, whether or not it was already present. -/
theorem processQuery_ledger (s : SearchOracle) (l : LookupOracle) (cfg : Config)
    (st : RunState) (q : Query) :
    (processQuery s l cfg st q).ledger
      = (confirmedIdOf s cfg q).elim st.ledger fun tid => insert tid st.ledger := by
  rcases hw : decideQuery s cfg q with _ | w
  · rw [processQuery_review s l cfg st q hw]
    unfold confirmedIdOf
    rw [hw]
    rfl
  · by_cases hmem : w.1.record.trackId ∈ st.ledger
    · rw [processQuery_skip s l cfg st q w hw hmem]
      unfold confirmedIdOf
      rw [hw]
      exact (Finset.insert_eq_self.mpr hmem).symm
    · rw [processQuery_confirmed s l cfg st q w hw hmem]
      unfold confirmedIdOf
      rw [hw]
      rfl

/-- The ledger after a sequence of queries is the initial ledger united with
every confirmed identifier of the sequence. -/
theorem runFold_ledger (s : SearchOracle) (l : LookupOracle) (cfg : Config)
    (qs : List Query) (st : RunState) :
    ((qs.foldl (processQuery s l cfg) st).ledger)
      = st.ledger ∪ (qs.filterMap (confirmedIdOf s cfg)).toFinset := by
  induction qs generalizing st with
  | nil => simp
  | cons q t ih =>
    rw [List.foldl_cons, ih, processQuery_ledger]
    rcases h : confirmedIdOf s cfg q with _ | tid
    · simp [List.filterMap_cons, h]
    · simp [List.filterMap_cons, h, Finset.insert_union, Finset.union_insert]

/-- The canonicalization loop falls back to the search-derived record when
every country's lookup fails or yields no (truthy) bundle id. -/
theorem findFinal_all_fail (l : LookupOracle) (cfg : Config) (tid : Option Nat)
    (fb : Rec) (countries : List String)
    (h : ∀ c ∈ countries, ∀ r, l tid c (cfg.langMap (lower c)) = some (some r) →
          orS r.bundleId "" = "") :
    findFinal l cfg tid fb countries = fb := by
  induction countries with
  | nil => rfl
  | cons c cs ih =>
    unfold findFinal
    rcases hc : l tid c (cfg.langMap (lower c)) with _ | ro
    · exact ih fun c' hc' => h c' (List.mem_cons_of_mem _ hc')
    · rcases ro with _ | r
      · exact ih fun c' hc' => h c' (List.mem_cons_of_mem _ hc')
      · dsimp only
        rw [if_pos (h c (List.mem_cons_self _ _) r hc)]
        exact ih fun c' hc' => h c' (List.mem_cons_of_mem _ hc')

/-- The canonicalization loop returns the record of the first country in
configured order whose lookup yields a record with a truthy bundle id. -/
theorem findFinal_first_success (l : LookupOracle) (cfg : Config) (tid : Option Nat)
    (fb : Rec) (pre : List String) (c : String) (post : List String) (r : Rec)
    (hpre : ∀ c' ∈ pre, ∀ r', l tid c' (cfg.langMap (lower c')) = some (some r') →
        orS r'.bundleId "" = "")
    (hc : l tid c (cfg.langMap (lower c)) = some (some r))
    (hr : orS r.bundleId "" ≠ "") :
    findFinal l cfg tid fb (pre ++ c :: post) = r := by
  induction pre with
  | nil =>
    rw [List.nil_append]
    unfold findFinal
    rw [hc]
    dsimp only
    rw [if_neg hr]
  | cons c' pre' ih =>
    rw [List.cons_append]
    unfold findFinal
    rcases hc' : l tid c' (cfg.langMap (lower c')) with _ | ro
    · exact ih fun c0 h0 => hpre c0 (List.mem_cons_of_mem _ h0)
    · rcases ro with _ | r'
      · exact ih fun c0 h0 => hpre c0 (List.mem_cons_of_mem _ h0)
      · dsimp only
        rw [if_pos (hpre c' (List.mem_cons_self _ _) r' hc')]
        exact ih fun c0 h0 => hpre c0 (List.mem_cons_of_mem _ h0)

/-! ### Claim C4: canonicalization and ledger insertion for a fresh winner -/

/-- C4: for a confirmed winner not already in the Ledger the identifier is
in the Ledger afterwards regardless of lookup outcomes, the emitted master
row is canonicalized through `findFinal` over the configured countries in
order, `findFinal` returns the first country's record carrying a truthy
bundle id, and it falls back to the search-derived candidate when every
lookup fails or returns no bundle id. -/
theorem canonicalization_correct (s : SearchOracle) (l : LookupOracle) (cfg : Config)
    (st : RunState) (q : Query) (w : SC)
    (hw : decideQuery s cfg q = some w) (hnew : w.1.record.trackId ∉ st.ledger) :
    w.1.record.trackId ∈ (processQuery s l cfg st q).ledger
    ∧ (processQuery s l cfg st q).master
        = st.master ++ [mkMasterRow q
            (findFinal l cfg w.1.record.trackId w.1.record cfg.countries) w.1 w.2.1 w.2.2]
    ∧ ((∀ c ∈ cfg.countries, ∀ r,
          l w.1.record.trackId c (cfg.langMap (lower c)) = some (some r) →
          orS r.bundleId "" = "") →
        findFinal l cfg w.1.record.trackId w.1.record cfg.countries = w.1.record)
    ∧ (∀ pre c post r, cfg.countries = pre ++ c :: post →
        (∀ c' ∈ pre, ∀ r',
            l w.1.record.trackId c' (cfg.langMap (lower c')) = some (some r') →
            orS r'.bundleId "" = "") →
        l w.1.record.trackId c (cfg.langMap (lower c)) = some (some r) →
        orS r.bundleId "" ≠ "" →
        findFinal l cfg w.1.record.trackId w.1.record cfg.countries = r) := by
  rw [processQuery_confirmed s l cfg st q w hw hnew]
  refine ⟨by simp, rfl, findFinal_all_fail l cfg _ _ _, ?_⟩
  rintro pre c post r hdec hpre hc hr
  rw [hdec]
  exact findFinal_first_success l cfg _ _ pre c post r hpre hc hr

/-! ### Claim C10: field provenance of the emitted master row -/

/-- C10: the emitted confirmed row takes `countries_found`, `score_total`
and `score_breakdown` from the original search-derived candidate and its
scoring, while trackId, bundleId, trackName, sellerName, genre, languages
and releaseDate come from the canonical record `f`. -/
theorem master_row_field_sources (s : SearchOracle) (l : LookupOracle) (cfg : Config)
    (st : RunState) (q : Query) (w : SC) (f : Rec)
    (hw : decideQuery s cfg q = some w)
    (hnew : w.1.record.trackId ∉ st.ledger)
    (hsucc : ∃ c ∈ cfg.countries, ∃ r,
        l w.1.record.trackId c (cfg.langMap (lower c)) = some (some r)
        ∧ orS r.bundleId "" ≠ "")
    (hf : findFinal l cfg w.1.record.trackId w.1.record cfg.countries = f) :
    (processQuery s l cfg st q).master = st.master ++
      [{ app_key := q.app_key, query_name := q.query_name,
         trackId := f.trackId, bundleId := f.bundleId, trackName := f.trackName,
         sellerName := sellerOrArtist f, primaryGenreName := f.primaryGenreName,
         languageCodesISO2A := f.languageCodesISO2A, releaseDate := f.releaseDate,
         countries_found := w.1.countries, score_total := w.2.1,
         score_breakdown := w.2.2 }] := by
  rw [processQuery_confirmed s l cfg st q w hw hnew, hf]
  rfl

/-! ### A small concrete run, shared by several witnesses and the C7
counterexample: one country "gb", contains-matching only, a single catalog
entry 7 named "app" found by the queries "app" and "ap". -/

def runHit : Rec := { trackId := some 7, trackName := some "app", bundleId := some "b.x" }

def runCand : Cand := ⟨runHit, {"GB"}⟩

def runDetails : ScoreDetails := { contains := some 88, total := 88 }

def runCfg : Config :=
  { countries := ["gb"]
    langMap := fun _ => "en_us"
    limit := 25
    match_mode := ["contains"]
    min_score := 80
    min_gap := 8
    wr := zeroRatio
    pr := zeroRatio }

def runQ1 : Query := ⟨"k1", "app", "", "", []⟩

def runQ2 : Query := ⟨"k2", "ap", "", "", []⟩

def runSearch : SearchOracle := fun t _ _ _ =>
  if t = "app" ∨ t = "ap" then some [runHit] else some []

/-- The same catalog, but every `search` call for the term "app" raises. -/
def runSearchFail : SearchOracle := fun t c lang lim =>
  if t = "app" then none else runSearch t c lang lim

/-- A lookup oracle whose calls always raise. -/
def runLookupNone : LookupOracle := fun _ _ _ => none

def runLooked : Rec :=
  { trackId := some 7, trackName := some "App Canonical",
    bundleId := some "com.x.app", sellerName := some "X Ltd" }

/-- A lookup oracle that canonicalizes entry 7 in country "gb". -/
def runLookupGood : LookupOracle := fun tid c _ =>
  if tid = some 7 ∧ c = "gb" then some (some runLooked) else none

theorem runScore1 : score_candidate "app" runHit ["contains"] [] "" "" zeroRatio zeroRatio
    = (88, runDetails) := by
  simp +decide only [score_candidate, exactEntry, startswithEntry, containsEntry,
    fuzzyEntry, devBonusOf, bundleBonusOf, genreBonusOf, orS, pyMax, runHit,
    runDetails, List.filterMap, Prod.mk.injEq, ScoreDetails.mk.injEq]
  norm_num

theorem runScore2 : score_candidate "ap" runHit ["contains"] [] "" "" zeroRatio zeroRatio
    = (88, runDetails) := by
  simp +decide only [score_candidate, exactEntry, startswithEntry, containsEntry,
    fuzzyEntry, devBonusOf, bundleBonusOf, genreBonusOf, orS, pyMax, runHit,
    runDetails, List.filterMap, Prod.mk.injEq, ScoreDetails.mk.injEq]
  norm_num

theorem runAgg1 : aggregateQuery runSearch runCfg "app" = [(7, runCand)] := by decide

theorem runAgg2 : aggregateQuery runSearch runCfg "ap" = [(7, runCand)] := by decide

theorem runScored1 : scoredOf runSearch runCfg runQ1 = [(runCand, 88, runDetails)] := by
  have h : scoredOf runSearch runCfg runQ1
      = [(runCand,
          (score_candidate "app" runHit ["contains"] [] "" "" zeroRatio zeroRatio).1,
          (score_candidate "app" runHit ["contains"] [] "" "" zeroRatio zeroRatio).2)] := by
    unfold scoredOf scoredFull
    rw [show aggregateQuery runSearch runCfg runQ1.query_name = [(7, runCand)] from runAgg1]
    rfl
  rw [h, runScore1]

theorem runScored2 : scoredOf runSearch runCfg runQ2 = [(runCand, 88, runDetails)] := by
  have h : scoredOf runSearch runCfg runQ2
      = [(runCand,
          (score_candidate "ap" runHit ["contains"] [] "" "" zeroRatio zeroRatio).1,
          (score_candidate "ap" runHit ["contains"] [] "" "" zeroRatio zeroRatio).2)] := by
    unfold scoredOf scoredFull
    rw [show aggregateQuery runSearch runCfg runQ2.query_name = [(7, runCand)] from runAgg2]
    rfl
  rw [h, runScore2]

theorem runPick : pick_winner [(runCand, 88, runDetails)] runCfg.min_score runCfg.min_gap
    = (some (runCand, 88, runDetails), [(runCand, 88, runDetails)]) := by
  have h := pick_winner_eq [(runCand, 88, runDetails)] runCfg.min_score runCfg.min_gap
    (runCand, 88, runDetails) [] rfl
  rw [h, if_neg (show ¬ ((runCand, (88 : ℚ), runDetails).2.1 < runCfg.min_score) by
    norm_num [runCfg])]

theorem runDec1 : decideQuery runSearch runCfg runQ1 = some (runCand, 88, runDetails) := by
  unfold decideQuery
  rw [runScored1, runPick]

theorem runDec2 : decideQuery runSearch runCfg runQ2 = some (runCand, 88, runDetails) := by
  unfold decideQuery
  rw [runScored2, runPick]

theorem runConfId1 : confirmedIdOf runSearch runCfg runQ1 = some (some 7) := by
  unfold confirmedIdOf
  rw [runDec1]
  rfl

theorem runConfId2 : confirmedIdOf runSearch runCfg runQ2 = some (some 7) := by
  unfold confirmedIdOf
  rw [runDec2]
  rfl

/-- Witness for C4: in the concrete run (all lookups raising), the winner's
identifier lands in the ledger and canonicalization falls back to the
search-derived record. -/
theorem canonicalization_correct_witness :
    (some 7 : Option Nat) ∈ (processQuery runSearch runLookupNone runCfg initState runQ1).ledger
    ∧ findFinal runLookupNone runCfg (some 7) runHit runCfg.countries = runHit := by
  have h := canonicalization_correct runSearch runLookupNone runCfg initState runQ1
    (runCand, 88, runDetails) runDec1 (by decide)
  exact ⟨h.1, h.2.2.1 fun c hc r hr => by simp [runLookupNone] at hr⟩

/-- Witness for C10: with the canonicalizing lookup oracle, the single
emitted row carries the looked-up record's fields together with the original
candidate's countries and scoring. -/
theorem master_row_field_sources_witness :
    (processQuery runSearch runLookupGood runCfg initState runQ1).master
      = [{ app_key := "k1", query_name := "app", trackId := some 7,
           bundleId := some "com.x.app", trackName := some "App Canonical",
           sellerName := some "X Ltd", primaryGenreName := none,
           languageCodesISO2A := [], releaseDate := none,
           countries_found := {"GB"}, score_total := 88,
           score_breakdown := runDetails }] := by
  have h := master_row_field_sources runSearch runLookupGood runCfg initState runQ1
    (runCand, 88, runDetails) runLooked runDec1 (by decide)
    ⟨"gb", by decide, runLooked, by decide, by decide⟩ (by decide)
  rw [h]
  rfl

/-! ### Claim C3: the dedup ledger admits one confirmed row per identifier -/

/-- Split a `confirmedIdOf` fact into the underlying winner. -/
theorem confirmedIdOf_inv (s : SearchOracle) (cfg : Config) (q : Query) (X : Option Nat)
    (h : confirmedIdOf s cfg q = some X) :
    ∃ w, decideQuery s cfg q = some w ∧ w.1.record.trackId = X := by
  unfold confirmedIdOf at h
  rcases hd : decideQuery s cfg q with _ | w <;> rw [hd] at h
  · cases h
  · exact ⟨w, rfl, by injection h⟩

/-- C3: when two distinct queries of one run both confirm the same
identifier, the later one appends no master row; and when no earlier query
confirmed that identifier, the first one appends exactly one master row.
Both are silent — processing continues normally. -/
theorem dedup_one_row_per_identifier (s : SearchOracle) (l : LookupOracle) (cfg : Config)
    (pre mid : List Query) (qi qj : Query) (X : Option Nat)
    (hi : confirmedIdOf s cfg qi = some X) (hj : confirmedIdOf s cfg qj = some X) :
    (processQuery s l cfg (runMain s l cfg (pre ++ qi :: mid)) qj).master
        = (runMain s l cfg (pre ++ qi :: mid)).master
    ∧ (X ∉ pre.filterMap (confirmedIdOf s cfg) →
        ∃ row, (processQuery s l cfg (runMain s l cfg pre) qi).master
            = (runMain s l cfg pre).master ++ [row]) := by
  obtain ⟨wj, hwj, hwjX⟩ := confirmedIdOf_inv s cfg qj X hj
  obtain ⟨wi, hwi, hwiX⟩ := confirmedIdOf_inv s cfg qi X hi
  constructor
  · have hmem : X ∈ (runMain s l cfg (pre ++ qi :: mid)).ledger := by
      unfold runMain
      rw [runFold_ledger]
      refine Finset.mem_union_right _ (List.mem_toFinset.mpr ?_)
      exact List.mem_filterMap.mpr ⟨qi, by simp, hi⟩
    rw [processQuery_skip s l cfg _ qj wj hwj (by rw [hwjX]; exact hmem)]
  · intro hpre
    have hnot : wi.1.record.trackId ∉ (runMain s l cfg pre).ledger := by
      unfold runMain
      rw [runFold_ledger, hwiX]
      simp only [initState, Finset.empty_union, List.mem_toFinset]
      exact hpre
    exact ⟨_, by rw [processQuery_confirmed s l cfg _ qi wi hwi hnot]⟩

/-- Witness for C3: in the concrete run, queries "app" and "ap" both confirm
identifier 7; the second appends no master row and the first appends one. -/
theorem dedup_one_row_per_identifier_witness :
    (processQuery runSearch runLookupNone runCfg
        (runMain runSearch runLookupNone runCfg [runQ1]) runQ2).master
      = (runMain runSearch runLookupNone runCfg [runQ1]).master
    ∧ ∃ row, (processQuery runSearch runLookupNone runCfg
        (runMain runSearch runLookupNone runCfg []) runQ1).master
      = (runMain runSearch runLookupNone runCfg []).master ++ [row] := by
  have h := dedup_one_row_per_identifier runSearch runLookupNone runCfg [] [] runQ1 runQ2
    (some 7) runConfId1 runConfId2
  exact ⟨h.1, h.2 (by decide)⟩

/-! ### Claim C5: the candidate aggregator -/

/-- The flattened (country, raw hit) stream of one query's collection loop,
in traversal order: countries in configured order, hits in result order. -/
def flatHits (s : SearchOracle) (cfg : Config) (qname : String) : List (String × Rec) :=
  cfg.countries.flatMap fun c => (resultsOf s cfg qname c).map fun r => (c, r)

/-- One aggregation step on the flattened stream. -/
def aggStep (acc : List (Nat × Cand)) (p : String × Rec) : List (Nat × Cand) :=
  addHit p.1 acc p.2

/-- Aggregation as a single fold over the flattened stream. -/
def aggList (hits : List (String × Rec)) : List (Nat × Cand) := hits.foldl aggStep []

theorem foldl_countries (s : SearchOracle) (cfg : Config) (qname : String)
    (cs : List String) (init : List (Nat × Cand)) :
    cs.foldl (fun acc country => (resultsOf s cfg qname country).foldl (addHit country) acc) init
      = (cs.flatMap fun c => (resultsOf s cfg qname c).map fun r => (c, r)).foldl aggStep init := by
  induction cs generalizing init with
  | nil => rfl
  | cons c cs ih =>
    rw [List.flatMap_cons, List.foldl_append, List.foldl_cons, List.foldl_map]
    exact ih _

theorem aggregateQuery_eq_aggList (s : SearchOracle) (cfg : Config) (qname : String) :
    aggregateQuery s cfg qname = aggList (flatHits s cfg qname) := by
  unfold aggregateQuery aggList flatHits
  exact foldl_countries s cfg qname cfg.countries []

/-- The first raw hit of the stream carrying a given identifier. -/
def firstHitFor (hits : List (String × Rec)) (tid : Nat) : Option (String × Rec) :=
  hits.find? fun p => p.2.trackId = some tid

/-- The set of (upper-cased) countries whose hits carry a given identifier. -/
def countriesFor (hits : List (String × Rec)) (tid : Nat) : Finset String :=
  ((hits.filter fun p => p.2.trackId = some tid).map fun p => upper p.1).toFinset

theorem lookup_cons (k : Nat) (v : Cand) (A : List (Nat × Cand)) (tid : Nat) :
    ((k, v) :: A).lookup tid = if tid = k then some v else A.lookup tid := by
  by_cases h : tid = k
  · simp [List.lookup, h]
  · simp [List.lookup, h, beq_eq_false_iff_ne.mpr h]

/-- The in-place `_countries` update `addHit` performs on an existing key. -/
def updCountry (c : String) (t : Nat) (p : Nat × Cand) : Nat × Cand :=
  if p.1 = t then (p.1, (⟨p.2.record, insert (upper c) p.2.countries⟩ : Cand)) else p

theorem lookup_map_updCountry (A : List (Nat × Cand)) (c : String) (t : Nat) (tid : Nat) :
    (A.map (updCountry c t)).lookup tid
      = if tid = t then
          (A.lookup tid).map fun cd => (⟨cd.record, insert (upper c) cd.countries⟩ : Cand)
        else A.lookup tid := by
  induction A with
  | nil => by_cases h : tid = t <;> simp [h]
  | cons a A ih =>
    obtain ⟨k, v⟩ := a
    by_cases hk : k = t
    · subst hk
      by_cases ht : tid = k <;>
        simp [updCountry, lookup_cons, ht, ih]
    · by_cases ht : tid = k
      · subst ht
        simp [updCountry, hk, lookup_cons, if_neg hk, ih]
      · simp [updCountry, hk, lookup_cons, ht, ih]

theorem lookup_append_single (A : List (Nat × Cand)) (k : Nat) (v : Cand) (tid : Nat) :
    (A ++ [(k, v)]).lookup tid
      = match A.lookup tid with
        | some w => some w
        | none => if tid = k then some v else none := by
  induction A with
  | nil => simp [lookup_cons]
  | cons a A ih =>
    obtain ⟨k', v'⟩ := a
    by_cases h : tid = k' <;> simp [lookup_cons, h, ih]

theorem map_fst_updCountry (A : List (Nat × Cand)) (c : String) (t : Nat) :
    (A.map (updCountry c t)).map Prod.fst = A.map Prod.fst := by
  induction A with
  | nil => rfl
  | cons a A ih => by_cases h : a.1 = t <;> simp [updCountry, h, ih]

theorem lookup_isSome_iff (A : List (Nat × Cand)) (tid : Nat) :
    (A.lookup tid).isSome = true ↔ tid ∈ A.map Prod.fst := by
  induction A with
  | nil => simp
  | cons a A ih =>
    obtain ⟨k, v⟩ := a
    by_cases h : tid = k <;> simp [lookup_cons, h, ih]

theorem find?_append_single (hits : List (String × Rec)) (x : String × Rec)
    (pred : String × Rec → Bool) :
    (hits ++ [x]).find? pred
      = match hits.find? pred with
        | some y => some y
        | none => if pred x then some x else none := by
  induction hits with
  | nil =>
    simp only [List.nil_append, List.find?_nil]
    by_cases h : pred x <;> simp [List.find?, h]
  | cons a hits ih =>
    by_cases h : pred a <;> simp [List.find?_cons, h, ih]

theorem firstHitFor_append_of_not (hits : List (String × Rec)) (c : String) (r : Rec)
    (tid : Nat) (h : r.trackId ≠ some tid) :
    firstHitFor (hits ++ [(c, r)]) tid = firstHitFor hits tid := by
  unfold firstHitFor
  rw [find?_append_single]
  rcases hf : hits.find? fun p => p.2.trackId = some tid with _ | y <;> simp [h, hf]

theorem countriesFor_append_of_not (hits : List (String × Rec)) (c : String) (r : Rec)
    (tid : Nat) (h : r.trackId ≠ some tid) :
    countriesFor (hits ++ [(c, r)]) tid = countriesFor hits tid := by
  unfold countriesFor
  rw [List.filter_append]
  simp [h]

theorem firstHitFor_append_of_some (hits : List (String × Rec)) (c : String) (r : Rec)
    (tid : Nat) (q0 : String × Rec) (h : firstHitFor hits tid = some q0) :
    firstHitFor (hits ++ [(c, r)]) tid = some q0 := by
  unfold firstHitFor at h ⊢
  rw [find?_append_single, h]

theorem firstHitFor_append_of_none (hits : List (String × Rec)) (c : String) (r : Rec)
    (tid : Nat) (hnone : firstHitFor hits tid = none) (h : r.trackId = some tid) :
    firstHitFor (hits ++ [(c, r)]) tid = some (c, r) := by
  unfold firstHitFor at hnone ⊢
  rw [find?_append_single, hnone]
  simp [h]

theorem countriesFor_append_of_none (hits : List (String × Rec)) (c : String) (r : Rec)
    (tid : Nat) (hnone : firstHitFor hits tid = none) (h : r.trackId = some tid) :
    countriesFor (hits ++ [(c, r)]) tid = {upper c} := by
  unfold countriesFor
  rw [List.filter_append]
  have hfil : (hits.filter fun p => p.2.trackId = some tid) = [] := by
    rw [List.filter_eq_nil_iff]
    intro a ha
    have := List.find?_eq_none.mp hnone a ha
    simpa using this
  rw [hfil]
  simp [h]

theorem countriesFor_append_of_mem (hits : List (String × Rec)) (c : String) (r : Rec)
    (tid : Nat) (h : r.trackId = some tid) :
    countriesFor (hits ++ [(c, r)]) tid = insert (upper c) (countriesFor hits tid) := by
  unfold countriesFor
  rw [List.filter_append]
  have hone : (([(c, r)] : List (String × Rec)).filter fun p => p.2.trackId = some tid)
      = [(c, r)] := by simp [h]
  rw [hone, List.map_append, List.toFinset_append]
  simp [Finset.union_comm, Finset.insert_eq]

/-- Characterization of the aggregator over the flattened hit stream: keys
are nodup and nonzero; for every nonzero identifier the stored candidate
carries the full record of the first hit with that identifier and the
accumulated upper-cased country set of all hits with that identifier;
identifiers never produced are absent. -/
theorem aggList_spec (hits : List (String × Rec)) :
    ((aggList hits).map Prod.fst).Nodup
    ∧ (∀ p ∈ aggList hits, p.1 ≠ 0)
    ∧ ∀ tid : Nat, tid ≠ 0 →
        (aggList hits).lookup tid
          = (firstHitFor hits tid).map fun q => (⟨q.2, countriesFor hits tid⟩ : Cand) := by
  induction hits using List.reverseRecOn with
  | nil =>
    refine ⟨by simp [aggList], by simp [aggList], fun tid _ => ?_⟩
    simp [aggList, firstHitFor]
  | append_singleton hits p ih =>
    obtain ⟨c, r⟩ := p
    obtain ⟨ihnodup, ihzero, ihlookup⟩ := ih
    have hstep : aggList (hits ++ [(c, r)]) = addHit c (aggList hits) r := by
      unfold aggList
      rw [List.foldl_append]
      rfl
    rcases htid : r.trackId with _ | t
    · have haddr : addHit c (aggList hits) r = aggList hits := by
        unfold addHit
        rw [htid]
      rw [hstep, haddr]
      refine ⟨ihnodup, ihzero, fun tid h0 => ?_⟩
      have hne : r.trackId ≠ some tid := by rw [htid]; exact fun hh => Option.noConfusion hh
      rw [ihlookup tid h0, firstHitFor_append_of_not hits c r tid hne,
          countriesFor_append_of_not hits c r tid hne]
    · by_cases ht0 : t = 0
      · subst ht0
        have haddr : addHit c (aggList hits) r = aggList hits := by
          unfold addHit
          rw [htid]
          simp
        rw [hstep, haddr]
        refine ⟨ihnodup, ihzero, fun tid h0 => ?_⟩
        have hne : r.trackId ≠ some tid := by
          rw [htid]
          intro hh
          injection hh with hh'
          exact h0 hh'.symm
        rw [ihlookup tid h0, firstHitFor_append_of_not hits c r tid hne,
            countriesFor_append_of_not hits c r tid hne]
      · by_cases hsome : ((aggList hits).lookup t).isSome = true
        · have haddr : addHit c (aggList hits) r = (aggList hits).map (updCountry c t) := by
            unfold addHit updCountry
            rw [htid]
            simp [ht0, hsome]
          rw [hstep, haddr]
          refine ⟨by rw [map_fst_updCountry]; exact ihnodup, ?_, fun tid h0 => ?_⟩
          · intro p hp
            obtain ⟨p0, hp0, rfl⟩ := List.mem_map.mp hp
            by_cases hpt : p0.1 = t
            · simpa [updCountry, hpt] using ihzero p0 hp0
            · simpa [updCountry, hpt] using ihzero p0 hp0
          · rw [lookup_map_updCountry]
            by_cases htt : tid = t
            · subst htt
              rw [if_pos rfl, ihlookup tid h0]
              rcases hf : firstHitFor hits tid with _ | q0
              · rw [ihlookup tid h0, hf] at hsome
                simp at hsome
              · rw [firstHitFor_append_of_some hits c r tid q0 hf,
                    countriesFor_append_of_mem hits c r tid (by rw [htid])]
                rfl
            · have hne : r.trackId ≠ some tid := by
                rw [htid]
                intro hh
                injection hh with hh'
                exact htt hh'.symm
              rw [if_neg htt, ihlookup tid h0, firstHitFor_append_of_not hits c r tid hne,
                  countriesFor_append_of_not hits c r tid hne]
        · have hnone : (aggList hits).lookup t = none := by
            rcases hh : (aggList hits).lookup t with _ | w
            · rfl
            · rw [hh] at hsome
              simp at hsome
          have haddr : addHit c (aggList hits) r
              = aggList hits ++ [(t, (⟨r, {upper c}⟩ : Cand))] := by
            unfold addHit
            rw [htid]
            simp [ht0, hsome]
          rw [hstep, haddr]
          have hfnone : firstHitFor hits t = none := by
            have h1 := ihlookup t ht0
            rw [hnone] at h1
            exact Option.map_eq_none'.mp h1.symm
          refine ⟨?_, ?_, fun tid h0 => ?_⟩
          · rw [List.map_append]
            rw [List.nodup_append]
            refine ⟨ihnodup, by simp, ?_⟩
            intro a ha hb
            simp at hb
            rw [hb] at ha
            have hx : ((aggList hits).lookup t).isSome = true :=
              (lookup_isSome_iff (aggList hits) t).mpr ha
            rw [hnone] at hx
            simp at hx
          · intro p hp
            rcases List.mem_append.mp hp with hmem | hmem
            · exact ihzero p hmem
            · simp at hmem
              subst hmem
              exact ht0
          · rw [lookup_append_single]
            by_cases htt : tid = t
            · subst htt
              rw [hnone]
              dsimp only
              rw [if_pos rfl,
                  firstHitFor_append_of_none hits c r tid hfnone (by rw [htid]),
                  countriesFor_append_of_none hits c r tid hfnone (by rw [htid])]
              rfl
            · have hne : r.trackId ≠ some tid := by
                rw [htid]
                intro hh
                injection hh with hh'
                exact htt hh'.symm
              have hmatch : (match (aggList hits).lookup tid with
                  | some w => some w
                  | none => if tid = t then some ((⟨r, {upper c}⟩ : Cand)) else none)
                    = (aggList hits).lookup tid := by
                rcases (aggList hits).lookup tid with _ | w <;> simp [htt]
              rw [hmatch, ihlookup tid h0, firstHitFor_append_of_not hits c r tid hne,
                  countriesFor_append_of_not hits c r tid hne]

/-- C5: the candidate aggregator produces a duplicate-free mapping from
identifier to candidate in which hits lacking a (truthy) identifier are
discarded, the first hit seen for an identifier supplies all candidate
fields, and later hits with the same identifier only add their country to
the accumulated `found_in` set. -/
theorem aggregator_correct (s : SearchOracle) (cfg : Config) (qname : String) :
    ((aggregateQuery s cfg qname).map Prod.fst).Nodup
    ∧ (∀ p ∈ aggregateQuery s cfg qname, p.1 ≠ 0)
    ∧ ∀ tid : Nat, tid ≠ 0 →
        (aggregateQuery s cfg qname).lookup tid
          = (firstHitFor (flatHits s cfg qname) tid).map
              fun q => (⟨q.2, countriesFor (flatHits s cfg qname) tid⟩ : Cand) := by
  rw [aggregateQuery_eq_aggList]
  exact aggList_spec _

/-- Witness for C5 at the concrete run: identifier 7 is stored with the
first hit's record and the accumulated country set. -/
theorem aggregator_correct_witness :
    (aggregateQuery runSearch runCfg "app").lookup 7
      = (firstHitFor (flatHits runSearch runCfg "app") 7).map
          fun q => (⟨q.2, countriesFor (flatHits runSearch runCfg "app") 7⟩ : Cand) :=
  (aggregator_correct runSearch runCfg "app").2.2 7 (by decide)

/-! ### Claim C7: error containment -/

/-- The aggregator only sees a query's own search results; a raised search
call is indistinguishable from an empty result list. -/
theorem aggregateQuery_congr (s1 s2 : SearchOracle) (cfg : Config) (qname : String)
    (hs : ∀ c lang lim, s1 qname c lang lim = s2 qname c lang lim
        ∨ (s1 qname c lang lim = none ∧ s2 qname c lang lim = some [])) :
    aggregateQuery s1 cfg qname = aggregateQuery s2 cfg qname := by
  have hres : ∀ c, resultsOf s1 cfg qname c = resultsOf s2 cfg qname c := by
    intro c
    unfold resultsOf
    rcases hs c (cfg.langMap (lower c)) cfg.limit with h | ⟨h1, h2⟩
    · rw [h]
    · rw [h1, h2]
  unfold aggregateQuery
  have hfun : (fun (acc : List (Nat × Cand)) country =>
        (resultsOf s1 cfg qname country).foldl (addHit country) acc)
      = fun acc country => (resultsOf s2 cfg qname country).foldl (addHit country) acc := by
    funext acc country
    rw [hres country]
  rw [hfun]

/-- The canonicalization loop cannot distinguish a raised lookup from an
absent record. -/
theorem findFinal_congr (l1 l2 : LookupOracle) (cfg : Config) (tid : Option Nat)
    (fb : Rec) :
    ∀ countries : List String,
      (∀ c ∈ countries,
        l1 tid c (cfg.langMap (lower c)) = l2 tid c (cfg.langMap (lower c))
        ∨ (l1 tid c (cfg.langMap (lower c)) = none
           ∧ l2 tid c (cfg.langMap (lower c)) = some none)) →
      findFinal l1 cfg tid fb countries = findFinal l2 cfg tid fb countries := by
  intro countries
  induction countries with
  | nil => intro _; rfl
  | cons c cs ih =>
    intro hl
    have htail := fun c' h' => hl c' (List.mem_cons_of_mem _ h')
    unfold findFinal
    rcases hl c (List.mem_cons_self _ _) with h | ⟨h1, h2⟩
    · rw [h]
      rcases hll : l2 tid c (cfg.langMap (lower c)) with _ | ro
      · exact ih htail
      · rcases ro with _ | r
        · exact ih htail
        · dsimp only
          by_cases hb : orS r.bundleId "" = ""
          · rw [if_pos hb, if_pos hb]
            exact ih htail
          · rw [if_neg hb, if_neg hb]
    · rw [h1, h2]
      dsimp only
      exact ih htail

/-- C7 amended: a failed search is degraded to an empty result sequence and
a failed lookup to an absent record, never aborting; a query's aggregation,
audit rows, scoring and Decision depend only on the search results for its
own term, so they are unchanged by failures elsewhere — but emitted
confirmed rows of later queries can still change through the shared dedup
ledger (see the counterexample). -/
theorem failure_isolation_amended (cfg : Config) (s1 s2 : SearchOracle)
    (l1 l2 : LookupOracle) (q : Query)
    (hs : ∀ c lang lim, s1 q.query_name c lang lim = s2 q.query_name c lang lim
        ∨ (s1 q.query_name c lang lim = none ∧ s2 q.query_name c lang lim = some [])) :
    aggregateQuery s1 cfg q.query_name = aggregateQuery s2 cfg q.query_name
    ∧ scoredFull s1 cfg q = scoredFull s2 cfg q
    ∧ decideQuery s1 cfg q = decideQuery s2 cfg q
    ∧ ∀ tid fb countries,
        (∀ c ∈ countries,
          l1 tid c (cfg.langMap (lower c)) = l2 tid c (cfg.langMap (lower c))
          ∨ (l1 tid c (cfg.langMap (lower c)) = none
             ∧ l2 tid c (cfg.langMap (lower c)) = some none)) →
        findFinal l1 cfg tid fb countries = findFinal l2 cfg tid fb countries := by
  have hagg := aggregateQuery_congr s1 s2 cfg q.query_name hs
  refine ⟨hagg, ?_, ?_, fun tid fb countries hl => findFinal_congr l1 l2 cfg tid fb countries hl⟩
  · unfold scoredFull
    rw [hagg]
  · unfold decideQuery scoredOf scoredFull
    rw [hagg]

/-- A search oracle returning empty results everywhere. -/
def emptySearch : SearchOracle := fun _ _ _ _ => some []

/-- A search oracle raising everywhere. -/
def noneSearch : SearchOracle := fun _ _ _ _ => none

/-- Witness for the amended C7: a query whose every search raises decides
exactly as one whose every search returns no results. -/
theorem failure_isolation_amended_witness :
    decideQuery noneSearch runCfg runQ1 = decideQuery emptySearch runCfg runQ1 :=
  (failure_isolation_amended runCfg noneSearch emptySearch runLookupNone runLookupNone
    runQ1 fun _ _ _ => Or.inr ⟨rfl, rfl⟩).2.2.1

theorem runAgg1f : aggregateQuery runSearchFail runCfg "app" = [] := by decide

theorem runAgg2f : aggregateQuery runSearchFail runCfg "ap" = [(7, runCand)] := by decide

theorem runDec1f : decideQuery runSearchFail runCfg runQ1 = none := by
  unfold decideQuery
  rw [show scoredOf runSearchFail runCfg runQ1 = [] from by
    unfold scoredOf scoredFull
    rw [show aggregateQuery runSearchFail runCfg runQ1.query_name = [] from runAgg1f]
    rfl]
  rfl

theorem runScored2f : scoredOf runSearchFail runCfg runQ2 = [(runCand, 88, runDetails)] := by
  have h : scoredOf runSearchFail runCfg runQ2
      = [(runCand,
          (score_candidate "ap" runHit ["contains"] [] "" "" zeroRatio zeroRatio).1,
          (score_candidate "ap" runHit ["contains"] [] "" "" zeroRatio zeroRatio).2)] := by
    unfold scoredOf scoredFull
    rw [show aggregateQuery runSearchFail runCfg runQ2.query_name = [(7, runCand)] from runAgg2f]
    rfl
  rw [h, runScore2]

theorem runDec2f : decideQuery runSearchFail runCfg runQ2 = some (runCand, 88, runDetails) := by
  unfold decideQuery
  rw [runScored2f, runPick]

/-- C7 counterexample: the claim "a search failure for one query never
changes the outcome of any other query" is false.  `runSearchFail` differs
from `runSearch` only in that searches for the first query's term "app"
raise; the confirmed rows emitted for the second query (key "k2", term "ap")
nevertheless differ between the two runs, because the first query's failure
removes identifier 7 from the dedup ledger. -/
theorem failure_isolation_counterexample :
    (∀ t c lang lim, t ≠ "app" → runSearch t c lang lim = runSearchFail t c lang lim)
    ∧ (∀ c lang lim, runSearchFail "app" c lang lim = none)
    ∧ runQ2.query_name ≠ "app"
    ∧ ((runMain runSearch runLookupNone runCfg [runQ1, runQ2]).master.filter
          fun row => row.app_key = runQ2.app_key)
        ≠ ((runMain runSearchFail runLookupNone runCfg [runQ1, runQ2]).master.filter
          fun row => row.app_key = runQ2.app_key) := by
  have hA1 := processQuery_confirmed runSearch runLookupNone runCfg initState runQ1
    (runCand, 88, runDetails) runDec1 (by decide)
  have hA2 := processQuery_skip runSearch runLookupNone runCfg
    (processQuery runSearch runLookupNone runCfg initState runQ1) runQ2
    (runCand, 88, runDetails) runDec2 (by rw [hA1]; decide)
  have hmA : (runMain runSearch runLookupNone runCfg [runQ1, runQ2]).master
      = [mkMasterRow runQ1
          (findFinal runLookupNone runCfg (some 7) runHit runCfg.countries)
          runCand 88 runDetails] := by
    show (processQuery runSearch runLookupNone runCfg
        (processQuery runSearch runLookupNone runCfg initState runQ1) runQ2).master = _
    rw [hA2, hA1]
    rfl
  have hB1 := processQuery_review runSearchFail runLookupNone runCfg initState runQ1 runDec1f
  have hB2 := processQuery_confirmed runSearchFail runLookupNone runCfg
    (processQuery runSearchFail runLookupNone runCfg initState runQ1) runQ2
    (runCand, 88, runDetails) runDec2f (by rw [hB1]; decide)
  have hmB : (runMain runSearchFail runLookupNone runCfg [runQ1, runQ2]).master
      = [mkMasterRow runQ2
          (findFinal runLookupNone runCfg (some 7) runHit runCfg.countries)
          runCand 88 runDetails] := by
    show (processQuery runSearchFail runLookupNone runCfg
        (processQuery runSearchFail runLookupNone runCfg initState runQ1) runQ2).master = _
    rw [hB2, hB1]
    rfl
  refine ⟨?_, ?_, by decide, ?_⟩
  · intro t c lang lim ht
    unfold runSearchFail
    rw [if_neg ht]
  · intro c lang lim
    unfold runSearchFail
    rw [if_pos rfl]
  · rw [hmA, hmB]
    decide

end AppResolver
